import Mathlib

/-!
Verification of the checkbox-list client (a virtualized grid of ten million
checkboxes synchronized over a WebSocket).

The development shallowly embeds the client component:

* the viewport geometry (`columnLength`, `actualIndex`, the row domain the
  virtualizer enumerates);
* the sparse list state: a JavaScript object used as a map from property keys
  (strings) to `true`, modelled as a `Finset String` of present keys, since
  the code only ever stores `true` and deletes otherwise;
* the WebSocket message handler: classification of inbound frames by the
  substring test `event.data.includes("get,")`, the `get`-response merge loop
  over `index:bit` tuples, and the `c,`/`u,` mutation-broadcast branch;
* the `useWebSocket` capability (`connected`/`send`) and the effect that
  issues `get,<start>,<end>` range queries;
* the 1000 ms trailing debounce applied independently to the settled range
  start and end (`useDebounceValue`).

JavaScript builtins that the component calls are modelled explicitly:
`String.prototype.split` with a one-character separator (`splitChar`),
`String.prototype.includes` (`containsSeq`), and the property-key coercion
performed by `obj[Number(s)]` (`jsNumberKey`, exact on the nonempty decimal
digit strings that well-formed frames carry).
-/

/-! ## Viewport geometry -/

/-- Cell size in pixels (`const checkboxSize = 32`). -/
def checkboxSize : ℕ := 32

/-- Cell padding in pixels (`const checkboxPadding = 4`). -/
def checkboxPadding : ℕ := 4

/-- Length of the `zeroToTenMilion` array: `Array.from({ length: 10_000_000 }, ...)`. -/
def zeroToTenMilionLength : ℕ := 10000000

/-- Column count: `Math.floor(width / (checkboxSize + checkboxPadding))`. -/
def columnLength (width : ℕ) : ℕ := width / (checkboxSize + checkboxPadding)

/-- Row indices enumerated by the row virtualizer.  The source passes
`count: zeroToTenMilion.length / columnLength` (real JavaScript division,
not floored), and the virtualizer enumerates the integer indices `i` with
`i < count`; over the naturals `i < N / cols` is exactly `i * cols < N`. -/
def rowEnumerated (cols row : ℕ) : Prop := row * cols < zeroToTenMilionLength

/-- Column indices enumerated by the column virtualizer (`count: columnLength`). -/
def colEnumerated (cols col : ℕ) : Prop := col < cols

/-- Linear cell index: `virtualRow.index * columnLength + virtualColumn.index`. -/
def actualIndex (cols row col : ℕ) : ℕ := row * cols + col

instance (cols row : ℕ) : Decidable (rowEnumerated cols row) :=
  inferInstanceAs (Decidable (_ < _))

instance (cols col : ℕ) : Decidable (colEnumerated cols col) :=
  inferInstanceAs (Decidable (_ < _))

/-! ## JavaScript string builtins -/

/-- Helper for `splitChar`: prepend a character to the first piece. -/
def consHead (c : Char) : List (List Char) → List (List Char)
  | [] => [[c]]
  | p :: ps => (c :: p) :: ps

/-- Model of `String.prototype.split` with a one-character separator
(the source only splits on `","` and `":"`), at the character-list level. -/
def splitChar (sep : Char) : List Char → List (List Char)
  | [] => [[]]
  | c :: rest =>
    if c = sep then [] :: splitChar sep rest else consHead c (splitChar sep rest)

/-- Model of `s.split(sep)` for a one-character separator `sep`. -/
def jsSplit1 (sep : Char) (s : String) : List String :=
  (splitChar sep s.data).map String.mk

/-- Occurrence test at the character-list level: does `pat` occur as a
contiguous subsequence of the second list? -/
def containsSeq (pat : List Char) : List Char → Bool
  | [] => pat.isEmpty
  | c :: rest => pat.isPrefixOf (c :: rest) || containsSeq pat rest

/-- Model of `s.includes(pat)` (`event.data.includes("get,")` in the source). -/
def jsIncludes (s pat : String) : Bool := containsSeq pat.data s.data

/-- Numeric value of a decimal digit character. -/
def digitVal (c : Char) : ℕ := c.toNat - '0'.toNat

/-- Value of a most-significant-first list of decimal digit characters. -/
def natOfDigits (l : List Char) : ℕ := l.foldl (fun a c => 10 * a + digitVal c) 0

/-- The property key used by `listState.current[Number(s)]`: JavaScript coerces
the number back to a string key, so `"07"` becomes key `"7"`.  The model is
exact for nonempty decimal digit strings — the only index syntax well-formed
frames carry; every other string is mapped to `"NaN"` (the key JavaScript
produces for non-numeric input; other numeric syntaxes such as floats are
approximated by the same key, and no theorem below depends on them). -/
def jsNumberKey (s : String) : String :=
  if s.data ≠ [] ∧ s.data.all Char.isDigit then Nat.repr (natOfDigits s.data) else "NaN"

/-- The property key used by `listState.current[index]` when `index` comes from
destructuring `event.data.split(",")`: a missing field is `undefined`, which
JavaScript coerces to the key `"undefined"`. -/
def rawKey : Option String → String
  | none => "undefined"
  | some s => s

/-! ## Sparse state store -/

/-- The `listState` ref: a JavaScript object used as a map.  The code only ever
assigns `true` and otherwise `delete`s the key, so the object is exactly the
finite set of present property keys. -/
abbrev ListState := Finset String

/-- A single assignment `obj[k] = true` or deletion `delete obj[k]`. -/
inductive StoreOp where
  | set (k : String)
  | del (k : String)
deriving DecidableEq

/-- Apply one assignment or deletion to the store. -/
def applyOp (st : ListState) : StoreOp → ListState
  | .set k => insert k st
  | .del k => st.erase k

/-- Apply a sequence of assignments/deletions left to right. -/
def applyOps (st : ListState) (ops : List StoreOp) : ListState :=
  ops.foldl applyOp st

/-- The last write a sequence of operations performs on key `k`:
`some true` for an assignment, `some false` for a deletion, `none` if the
sequence never touches `k`. -/
def lastOn : List StoreOp → String → Option Bool
  | [], _ => none
  | op :: ops, k =>
    match lastOn ops k with
    | some b => some b
    | none =>
      match op with
      | .set k2 => if k2 = k then some true else none
      | .del k2 => if k2 = k then some false else none

/-- The checked state the component reads:
`listState.current[actualIndex] ?? false`, i.e. key `String(i)` present. -/
def isChecked (st : ListState) (i : ℕ) : Bool := decide (Nat.repr i ∈ st)

/-- One iteration of the `get`-response merge loop: split the tuple on `":"`,
skip it if the index or bit field is missing or empty (falsy), otherwise
assign `true` under key `Number(index)` when the bit is `"1"` and delete that
key for any other bit. -/
def tupleOp (t : String) : Option StoreOp :=
  let parts := jsSplit1 ':' t
  match parts[0]?, parts[1]? with
  | some idx, some chk =>
    if idx = "" ∨ chk = "" then none
    else if chk = "1" then some (.set (jsNumberKey idx)) else some (.del (jsNumberKey idx))
  | _, _ => none

/-- The `get`-response branch of the message handler: split the frame on `","`,
`shift()` off the leading piece, and run the merge loop over the remaining
`index:bit` tuples. -/
def mergeGetFrame (st : ListState) (frame : String) : ListState :=
  applyOps st (((jsSplit1 ',' frame).drop 1).filterMap tupleOp)

/-- The mutation-broadcast branch of the message handler:
`const [type, index] = event.data.split(",")`, then assign under the raw key
when `type === "c"` and delete it when `type === "u"`. -/
def mutationStep (st : ListState) (frame : String) : ListState :=
  let parts := jsSplit1 ',' frame
  let ty := parts[0]?.getD ""
  let key := rawKey parts[1]?
  let st1 := if ty = "c" then insert key st else st
  if ty = "u" then st1.erase key else st1

/-- The full `onMessage` handler's effect on the store: frames whose text
contains `"get,"` anywhere go through the range-response merge, all others
through the mutation branch. -/
def processMessage (st : ListState) (frame : String) : ListState :=
  if jsIncludes frame "get," then mergeGetFrame st frame else mutationStep st frame

/-- The store effect of the checkbox `onChange` handler: assign `true` under
key `String(actualIndex)` when checking, delete the key when unchecking. -/
def localToggleStore (st : ListState) (i : ℕ) (checked : Bool) : ListState :=
  if checked then insert (Nat.repr i) st else st.erase (Nat.repr i)

/-- The wire frame the `onChange` handler sends:
`` `${checked ? "c" : "u"},${actualIndex}` ``. -/
def mutFrame (checked : Bool) (i : ℕ) : String :=
  (if checked then "c" else "u") ++ "," ++ Nat.repr i

/-- A one-tuple range-response frame `get,<i>:<bit>` carrying index `i` with
bit `1` (checked) or `0` (unchecked). -/
def mergeBitFrame (checked : Bool) (i : ℕ) : String :=
  "get," ++ Nat.repr i ++ ":" ++ (if checked then "1" else "0")

/-- A store mutation on index `i`, tagged with the path it arrives by:
the local checkbox toggle, a remote `c,`/`u,` broadcast frame, or an
`index:bit` tuple of a range-response merge. -/
inductive Mutation where
  | toggle (i : ℕ) (checked : Bool)
  | broadcast (i : ℕ) (checked : Bool)
  | mergeBit (i : ℕ) (checked : Bool)

/-- Index targeted by a mutation. -/
def mutIndex : Mutation → ℕ
  | .toggle i _ => i
  | .broadcast i _ => i
  | .mergeBit i _ => i

/-- Whether the mutation marks its index checked. -/
def mutChecked : Mutation → Bool
  | .toggle _ c => c
  | .broadcast _ c => c
  | .mergeBit _ c => c

/-- Apply a mutation through the code path it belongs to. -/
def applyMutation (st : ListState) : Mutation → ListState
  | .toggle i c => localToggleStore st i c
  | .broadcast i c => processMessage st (mutFrame c i)
  | .mergeBit i c => processMessage st (mergeBitFrame c i)

/-- The canonical store operation a mutation boils down to. -/
def opOf (m : Mutation) : StoreOp :=
  if mutChecked m then .set (Nat.repr (mutIndex m)) else .del (Nat.repr (mutIndex m))

/-- The last mutation a sequence applies to index `i` (as with `lastOn`):
`some true`/`some false` for check/uncheck, `none` if `i` is never touched. -/
def lastWrite : List Mutation → ℕ → Option Bool
  | [], _ => none
  | m :: ms, i =>
    match lastWrite ms i with
    | some b => some b
    | none => if mutIndex m = i then some (mutChecked m) else none

/-! ## Sync channel and range queries -/

/-- `WebSocket.OPEN`. -/
def wsOPEN : ℕ := 1

/-- The client-side connection state the component closes over: the `connected`
React state, the raw socket's `readyState` (`none` models `ws.current` being
`null`), and the two debounced range bounds the query effect reads. -/
structure ClientState where
  connected : Bool
  readyState : Option ℕ
  settledStart : ℕ
  settledEnd : ℕ

/-- The range-query frame `` `get,${rangeStart},${rangeEnd}` ``. -/
def mkGet (s e : ℕ) : String := "get," ++ Nat.repr s ++ "," ++ Nat.repr e

/-- Frames `send(data)` puts on the wire: the command itself when `connected`
is set and the socket's `readyState` is `OPEN`, nothing otherwise. -/
def sendOnWire (st : ClientState) (data : String) : List String :=
  if st.connected = true ∧ st.readyState = some wsOPEN then [data] else []

/-- A `send` call: the source's `send` only inspects `connected`/`readyState`
and (maybe) writes to the socket — it keeps no queue and changes no state. -/
def sendStep (st : ClientState) (data : String) : ClientState × List String :=
  (st, sendOnWire st data)

/-- The `open` transition: the socket's `open` listener sets `connected`
(the socket itself is now `OPEN`), which re-runs the query effect, sending
`get,<start>,<end>` for the currently settled debounced range. -/
def onOpen (st : ClientState) : ClientState × List String :=
  let st2 : ClientState :=
    { st with connected := true, readyState := some wsOPEN }
  (st2, sendOnWire st2 (mkGet st2.settledStart st2.settledEnd))

/-- The initial client state: disconnected (`readyState` CONNECTING), with the
initial debounced bounds `useDebounceValue(0, 1000)` / `useDebounceValue(1000, 1000)`. -/
def initClient : ClientState :=
  { connected := false, readyState := some 0, settledStart := 0, settledEnd := 1000 }

/-! ## Debouncer -/

/-- The quiet interval of `useDebounceValue(_, 1000)`, in milliseconds. -/
def debounceDelay : ℕ := 1000

/-- Trailing-edge debounce over a time-stamped candidate stream: a candidate
arriving at time `t` is emitted at `t + T` unless a new candidate arrives
strictly before that (which restarts the single timer). -/
def debounceEmits (T : ℕ) : List (ℕ × ℕ) → List (ℕ × ℕ)
  | [] => []
  | [(t, v)] => [(t + T, v)]
  | (t, v) :: (t2, v2) :: rest =>
    (if t + T ≤ t2 then [(t + T, v)] else []) ++ debounceEmits T ((t2, v2) :: rest)

/-- The candidate stream fed to the `rangeStart` debouncer: each
`onChange` candidate `(time, (start, end))` updates the start timer. -/
def startFeed (cands : List (ℕ × ℕ × ℕ)) : List (ℕ × ℕ) :=
  cands.map fun c => (c.1, c.2.1)

/-- The candidate stream fed to the `rangeEnd` debouncer. -/
def endFeed (cands : List (ℕ × ℕ × ℕ)) : List (ℕ × ℕ) :=
  cands.map fun c => (c.1, c.2.2)

/-- A burst of 50 candidate ranges, 10 ms apart (well within the quiet
interval): candidate `k` is `(10 * k, (k, k + 1000))`. -/
def burst50 : List (ℕ × ℕ × ℕ) :=
  (List.range 50).map fun k => (10 * k, (k, k + 1000))

/-- Burst condition on a list of arrival times: each candidate arrives
strictly within the quiet interval after the previous one. -/
def timesWithin (T : ℕ) : List ℕ → Bool
  | t :: t2 :: rest => decide (t2 < t + T) && timesWithin T (t2 :: rest)
  | _ => true

/-! ## Lemmas about the string models -/

theorem consHead_ne_nil (c : Char) (ps : List (List Char)) : consHead c ps ≠ [] := by
  cases ps <;> simp [consHead]

theorem splitChar_ne_nil (sep : Char) (l : List Char) : splitChar sep l ≠ [] := by
  induction l with
  | nil => simp [splitChar]
  | cons c rest ih =>
    simp only [splitChar]
    split
    · simp
    · exact consHead_ne_nil _ _

theorem splitChar_of_not_mem {sep : Char} {l : List Char} (h : sep ∉ l) :
    splitChar sep l = [l] := by
  induction l with
  | nil => rfl
  | cons c rest ih =>
    have hc : ¬ c = sep := by rintro rfl; exact h (List.mem_cons_self _ _)
    have hr : sep ∉ rest := fun hm => h (List.mem_cons_of_mem _ hm)
    simp [splitChar, hc, ih hr, consHead]

theorem splitChar_append {sep : Char} {a : List Char} (b : List Char) (h : sep ∉ a) :
    splitChar sep (a ++ sep :: b) = a :: splitChar sep b := by
  induction a with
  | nil => simp [splitChar]
  | cons x a2 ih =>
    have hx : ¬ x = sep := by rintro rfl; exact h (List.mem_cons_self _ _)
    have ha : sep ∉ a2 := fun hm => h (List.mem_cons_of_mem _ hm)
    show splitChar sep (x :: (a2 ++ sep :: b)) = (x :: a2) :: splitChar sep b
    rw [splitChar, if_neg hx, ih ha]
    rfl

theorem isPrefixOf_iff_ex {p l : List Char} :
    p.isPrefixOf l = true ↔ ∃ t, l = p ++ t := by
  induction p generalizing l with
  | nil => simp [List.isPrefixOf]
  | cons a p ih =>
    cases l with
    | nil => simp [List.isPrefixOf]
    | cons b l =>
      simp only [List.isPrefixOf, Bool.and_eq_true, beq_iff_eq, ih, List.cons_append,
        List.cons.injEq]
      constructor
      · rintro ⟨rfl, t, rfl⟩; exact ⟨t, rfl, rfl⟩
      · rintro ⟨t, rfl, rfl⟩; exact ⟨rfl, t, rfl⟩

theorem containsSeq_iff {pat : List Char} (hp : pat ≠ []) (l : List Char) :
    containsSeq pat l = true ↔ ∃ x y, l = x ++ pat ++ y := by
  induction l with
  | nil =>
    constructor
    · intro h
      exact absurd (List.isEmpty_iff.mp h) hp
    · rintro ⟨x, y, hxy⟩
      rcases List.append_eq_nil.mp hxy.symm with ⟨h1, h2⟩
      rcases List.append_eq_nil.mp h1 with ⟨_, h3⟩
      exact absurd h3 hp
  | cons c rest ih =>
    simp only [containsSeq, Bool.or_eq_true, isPrefixOf_iff_ex, ih]
    constructor
    · rintro (⟨t, ht⟩ | ⟨x, y, hxy⟩)
      · exact ⟨[], t, by simp [ht]⟩
      · exact ⟨c :: x, y, by simp [hxy]⟩
    · rintro ⟨x, y, hxy⟩
      cases x with
      | nil => exact Or.inl ⟨y, by simpa using hxy⟩
      | cons x0 xs =>
        refine Or.inr ⟨xs, y, ?_⟩
        have : c :: rest = x0 :: (xs ++ pat ++ y) := by simpa using hxy
        exact (List.cons.injEq _ _ _ _ ▸ this).2

theorem containsSeq_false_of_head_not_mem {g : Char} {l : List Char} (p : List Char)
    (h : g ∉ l) : containsSeq (g :: p) l = false := by
  cases hb : containsSeq (g :: p) l
  · rfl
  · exfalso
    rcases (containsSeq_iff (List.cons_ne_nil g p) l).mp hb with ⟨x, y, rfl⟩
    exact h (by simp)

/-! ## Lemmas about decimal representations -/

theorem digitChar_isDigit {m : ℕ} (h : m < 10) : (Nat.digitChar m).isDigit = true := by
  interval_cases m <;> decide

theorem digitVal_digitChar {m : ℕ} (h : m < 10) : digitVal (Nat.digitChar m) = m := by
  interval_cases m <;> decide

theorem toDigitsCore_succ (b fuel n : ℕ) (ds : List Char) :
    Nat.toDigitsCore b (fuel + 1) n ds =
      if n / b = 0 then Nat.digitChar (n % b) :: ds
      else Nat.toDigitsCore b fuel (n / b) (Nat.digitChar (n % b) :: ds) := rfl

theorem toDigitsCore_acc (fuel : ℕ) : ∀ (n : ℕ) (ds : List Char),
    Nat.toDigitsCore 10 fuel n ds = Nat.toDigitsCore 10 fuel n [] ++ ds := by
  induction fuel with
  | zero => intro n ds; rfl
  | succ fuel ih =>
    intro n ds
    rw [toDigitsCore_succ, toDigitsCore_succ]
    by_cases h : n / 10 = 0
    · simp [h]
    · rw [if_neg h, if_neg h, ih (n / 10) (Nat.digitChar (n % 10) :: ds),
        ih (n / 10) [Nat.digitChar (n % 10)]]
      simp

theorem toDigitsCore_all_digit (fuel : ℕ) : ∀ (n : ℕ) (ds : List Char),
    (∀ c ∈ ds, c.isDigit = true) →
    ∀ c ∈ Nat.toDigitsCore 10 fuel n ds, c.isDigit = true := by
  induction fuel with
  | zero => intro n ds h; exact h
  | succ fuel ih =>
    intro n ds h c hc
    rw [toDigitsCore_succ] at hc
    have hd : ∀ c2 ∈ (Nat.digitChar (n % 10) :: ds), c2.isDigit = true := by
      intro c2 hc2
      rcases List.mem_cons.mp hc2 with rfl | hm
      · exact digitChar_isDigit (Nat.mod_lt _ (by norm_num))
      · exact h _ hm
    by_cases h0 : n / 10 = 0
    · rw [if_pos h0] at hc
      exact hd _ hc
    · rw [if_neg h0] at hc
      exact ih _ _ hd _ hc

theorem repr_data (n : ℕ) : (Nat.repr n).data = Nat.toDigits 10 n := rfl

theorem repr_all_digit (n : ℕ) : ∀ c ∈ (Nat.repr n).data, c.isDigit = true := by
  rw [repr_data]
  exact toDigitsCore_all_digit (n + 1) n [] (by simp)

theorem not_mem_repr_of_not_digit {c : Char} (hc : c.isDigit = false) (n : ℕ) :
    c ∉ (Nat.repr n).data := by
  intro h
  have h2 := repr_all_digit n c h
  rw [hc] at h2
  exact Bool.noConfusion h2

theorem repr_data_ne_nil (n : ℕ) : (Nat.repr n).data ≠ [] := by
  rw [repr_data]
  show Nat.toDigitsCore 10 (n + 1) n [] ≠ []
  rw [toDigitsCore_succ]
  by_cases h : n / 10 = 0
  · simp [h]
  · rw [if_neg h, toDigitsCore_acc]
    simp

theorem repr_ne_empty (n : ℕ) : Nat.repr n ≠ "" := by
  intro h
  exact repr_data_ne_nil n (by rw [h])

theorem repr_ne_undefined (n : ℕ) : Nat.repr n ≠ "undefined" := by
  intro h
  have hm : 'u' ∈ (Nat.repr n).data := by rw [h]; decide
  exact not_mem_repr_of_not_digit (by decide) n hm

theorem natOfDigits_append_singleton (x : List Char) (d : Char) :
    natOfDigits (x ++ [d]) = 10 * natOfDigits x + digitVal d := by
  simp [natOfDigits, List.foldl_append]

theorem natOfDigits_toDigitsCore (fuel : ℕ) : ∀ n : ℕ, n < fuel →
    natOfDigits (Nat.toDigitsCore 10 fuel n []) = n := by
  induction fuel with
  | zero => intro n h; omega
  | succ fuel ih =>
    intro n h
    rw [toDigitsCore_succ]
    by_cases h0 : n / 10 = 0
    · rw [if_pos h0]
      have h1 : natOfDigits [Nat.digitChar (n % 10)] = digitVal (Nat.digitChar (n % 10)) := by
        simp [natOfDigits]
      rw [h1, digitVal_digitChar (Nat.mod_lt _ (by norm_num))]
      omega
    · rw [if_neg h0, toDigitsCore_acc, natOfDigits_append_singleton,
        ih (n / 10) (by omega), digitVal_digitChar (Nat.mod_lt _ (by norm_num))]
      omega

theorem natOfDigits_repr (n : ℕ) : natOfDigits (Nat.repr n).data = n := by
  rw [repr_data]
  exact natOfDigits_toDigitsCore (n + 1) n (Nat.lt_succ_self n)

theorem repr_injective {a b : ℕ} (h : Nat.repr a = Nat.repr b) : a = b := by
  have h2 := congrArg (fun s => natOfDigits s.data) h
  simpa [natOfDigits_repr] using h2

theorem jsNumberKey_repr (i : ℕ) : jsNumberKey (Nat.repr i) = Nat.repr i := by
  unfold jsNumberKey
  rw [if_pos, natOfDigits_repr]
  exact ⟨repr_data_ne_nil i, List.all_eq_true.mpr fun c hc => repr_all_digit i c hc⟩

/-! ## Lemmas about the store -/

theorem mem_applyOps (x : String) : ∀ (ops : List StoreOp) (st : ListState),
    x ∈ applyOps st ops ↔
      lastOn ops x = some true ∨ (lastOn ops x = none ∧ x ∈ st) := by
  intro ops
  induction ops with
  | nil => intro st; simp [applyOps, lastOn]
  | cons op ops ih =>
    intro st
    have hstep : applyOps st (op :: ops) = applyOps (applyOp st op) ops := rfl
    rw [hstep, ih]
    rcases h : lastOn ops x with _ | b
    · cases op with
      | set k =>
        by_cases hk : k = x
        · subst hk
          simp [lastOn, h, applyOp, Finset.mem_insert]
        · have hne : ¬ x = k := fun hc => hk hc.symm
          simp [lastOn, h, applyOp, Finset.mem_insert, hk, hne]
      | del k =>
        by_cases hk : k = x
        · subst hk
          simp [lastOn, h, applyOp, Finset.mem_erase]
        · have hne : ¬ x = k := fun hc => hk hc.symm
          simp [lastOn, h, applyOp, Finset.mem_erase, hk, hne]
    · simp [lastOn, h]

theorem applyOps_idem (st : ListState) (ops : List StoreOp) :
    applyOps (applyOps st ops) ops = applyOps st ops := by
  apply Finset.ext
  intro x
  rw [mem_applyOps, mem_applyOps]
  rcases h : lastOn ops x with _ | b
  · simp [h]
  · cases b <;> simp [h]

/-! ## Reduction of the wire-frame paths to store operations -/

theorem jsSplit1_mutFrame (c : Bool) (i : ℕ) :
    jsSplit1 ',' (mutFrame c i) = [if c then "c" else "u", Nat.repr i] := by
  unfold jsSplit1
  have hd : (mutFrame c i).data = (if c then ['c'] else ['u']) ++ ',' :: (Nat.repr i).data := by
    cases c <;> rfl
  rw [hd, splitChar_append _ (by cases c <;> decide),
    splitChar_of_not_mem (not_mem_repr_of_not_digit (by decide) i)]
  cases c <;> rfl

theorem jsIncludes_mutFrame (c : Bool) (i : ℕ) : jsIncludes (mutFrame c i) "get," = false := by
  have hd : (mutFrame c i).data = (if c then 'c' else 'u') :: ',' :: (Nat.repr i).data := by
    cases c <;> rfl
  have hg : ('g' : Char) ∉ (mutFrame c i).data := by
    rw [hd]
    intro hm
    rcases List.mem_cons.mp hm with h1 | h2
    · cases c <;> simp_all
    · rcases List.mem_cons.mp h2 with h3 | h4
      · exact absurd h3 (by decide)
      · exact not_mem_repr_of_not_digit (by decide) i h4
  show containsSeq "get,".data (mutFrame c i).data = false
  have he : "get,".data = 'g' :: "et,".data := rfl
  rw [he]
  exact containsSeq_false_of_head_not_mem _ hg

theorem processMessage_mutFrame (st : ListState) (c : Bool) (i : ℕ) :
    processMessage st (mutFrame c i) = localToggleStore st i c := by
  unfold processMessage
  rw [jsIncludes_mutFrame, if_neg (by decide : ¬ ((false : Bool) = true))]
  unfold mutationStep
  rw [jsSplit1_mutFrame]
  cases c
  · simp [rawKey, localToggleStore]
  · simp [rawKey, localToggleStore]

theorem mergeBitFrame_data (c : Bool) (i : ℕ) :
    (mergeBitFrame c i).data =
      'g' :: 'e' :: 't' :: ',' ::
        ((Nat.repr i).data ++ ':' :: (if c then ['1'] else ['0'])) := by
  cases c <;>
  · simp only [mergeBitFrame, String.data_append, List.append_assoc]
    rfl

theorem jsIncludes_mergeBitFrame (c : Bool) (i : ℕ) :
    jsIncludes (mergeBitFrame c i) "get," = true := by
  show containsSeq "get,".data (mergeBitFrame c i).data = true
  refine (containsSeq_iff (by decide) _).mpr
    ⟨[], (Nat.repr i).data ++ ':' :: (if c then ['1'] else ['0']), ?_⟩
  rw [mergeBitFrame_data]
  rfl

theorem jsSplit1_mergeBitFrame (c : Bool) (i : ℕ) :
    jsSplit1 ',' (mergeBitFrame c i) =
      ["get", String.mk ((Nat.repr i).data ++ ':' :: (if c then ['1'] else ['0']))] := by
  unfold jsSplit1
  have hnc : ',' ∉ (Nat.repr i).data ++ ':' :: (if c then ['1'] else ['0']) := by
    intro hm
    rcases List.mem_append.mp hm with h3 | h4
    · exact not_mem_repr_of_not_digit (by decide) i h3
    · rcases List.mem_cons.mp h4 with h5 | h6
      · exact absurd h5 (by decide)
      · cases c <;> simp_all
  rw [mergeBitFrame_data]
  have h2 : 'g' :: 'e' :: 't' :: ',' ::
        ((Nat.repr i).data ++ ':' :: (if c then ['1'] else ['0']))
      = ['g', 'e', 't'] ++ ',' ::
        ((Nat.repr i).data ++ ':' :: (if c then ['1'] else ['0'])) := rfl
  rw [h2, splitChar_append _ (by decide), splitChar_of_not_mem hnc]
  rfl

theorem tupleOp_mergeBit (c : Bool) (i : ℕ) :
    tupleOp (String.mk ((Nat.repr i).data ++ ':' :: (if c then ['1'] else ['0']))) =
      some (if c then StoreOp.set (Nat.repr i) else StoreOp.del (Nat.repr i)) := by
  cases c
  · have hsp : jsSplit1 ':' (String.mk ((Nat.repr i).data ++ [':', '0']))
        = [Nat.repr i, "0"] := by
      unfold jsSplit1
      show (splitChar ':' ((Nat.repr i).data ++ [':', '0'])).map String.mk = _
      rw [splitChar_append _ (not_mem_repr_of_not_digit (by decide) i),
        splitChar_of_not_mem (by decide)]
      rfl
    show tupleOp (String.mk ((Nat.repr i).data ++ [':', '0'])) = some (StoreOp.del (Nat.repr i))
    simp [tupleOp, hsp, repr_ne_empty i, jsNumberKey_repr]
  · have hsp : jsSplit1 ':' (String.mk ((Nat.repr i).data ++ [':', '1']))
        = [Nat.repr i, "1"] := by
      unfold jsSplit1
      show (splitChar ':' ((Nat.repr i).data ++ [':', '1'])).map String.mk = _
      rw [splitChar_append _ (not_mem_repr_of_not_digit (by decide) i),
        splitChar_of_not_mem (by decide)]
      rfl
    show tupleOp (String.mk ((Nat.repr i).data ++ [':', '1'])) = some (StoreOp.set (Nat.repr i))
    simp [tupleOp, hsp, repr_ne_empty i, jsNumberKey_repr]

theorem processMessage_mergeBitFrame (st : ListState) (c : Bool) (i : ℕ) :
    processMessage st (mergeBitFrame c i) = localToggleStore st i c := by
  unfold processMessage
  rw [jsIncludes_mergeBitFrame, if_pos rfl]
  unfold mergeGetFrame
  rw [jsSplit1_mergeBitFrame]
  simp only [List.drop_succ_cons, List.drop_zero, List.filterMap_cons, tupleOp_mergeBit]
  cases c
  · simp [applyOps, applyOp, localToggleStore]
  · simp [applyOps, applyOp, localToggleStore]

theorem applyMutation_eq_applyOp (st : ListState) (m : Mutation) :
    applyMutation st m = applyOp st (opOf m) := by
  cases m with
  | toggle i c =>
    cases c <;> simp [applyMutation, localToggleStore, opOf, mutChecked, mutIndex, applyOp]
  | broadcast i c =>
    cases c <;>
      simp [applyMutation, processMessage_mutFrame, localToggleStore, opOf, mutChecked,
        mutIndex, applyOp]
  | mergeBit i c =>
    cases c <;>
      simp [applyMutation, processMessage_mergeBitFrame, localToggleStore, opOf, mutChecked,
        mutIndex, applyOp]

theorem foldl_applyMutation (ops : List Mutation) : ∀ st : ListState,
    ops.foldl applyMutation st = applyOps st (ops.map opOf) := by
  induction ops with
  | nil => intro st; rfl
  | cons m ms ih =>
    intro st
    show ms.foldl applyMutation (applyMutation st m) = applyOps (applyOp st (opOf m)) (ms.map opOf)
    rw [applyMutation_eq_applyOp]
    exact ih _

theorem lastOn_map_opOf (ops : List Mutation) (i : ℕ) :
    lastOn (ops.map opOf) (Nat.repr i) = lastWrite ops i := by
  induction ops with
  | nil => rfl
  | cons m ms ih =>
    have hhead : (match opOf m with
        | StoreOp.set k2 => if k2 = Nat.repr i then some true else none
        | StoreOp.del k2 => if k2 = Nat.repr i then some false else none) =
        (if mutIndex m = i then some (mutChecked m) else none) := by
      cases hb : mutChecked m
      · have ho : opOf m = StoreOp.del (Nat.repr (mutIndex m)) := by simp [opOf, hb]
        rw [ho]
        show (if Nat.repr (mutIndex m) = Nat.repr i then some false else none) =
          (if mutIndex m = i then some false else none)
        by_cases hk : mutIndex m = i
        · rw [if_pos (congrArg Nat.repr hk), if_pos hk]
        · rw [if_neg (fun hc => hk (repr_injective hc)), if_neg hk]
      · have ho : opOf m = StoreOp.set (Nat.repr (mutIndex m)) := by simp [opOf, hb]
        rw [ho]
        show (if Nat.repr (mutIndex m) = Nat.repr i then some true else none) =
          (if mutIndex m = i then some true else none)
        by_cases hk : mutIndex m = i
        · rw [if_pos (congrArg Nat.repr hk), if_pos hk]
        · rw [if_neg (fun hc => hk (repr_injective hc)), if_neg hk]
    show (match lastOn (ms.map opOf) (Nat.repr i) with
      | some b => some b
      | none =>
        match opOf m with
        | StoreOp.set k2 => if k2 = Nat.repr i then some true else none
        | StoreOp.del k2 => if k2 = Nat.repr i then some false else none) =
      (match lastWrite ms i with
      | some b => some b
      | none => if mutIndex m = i then some (mutChecked m) else none)
    rw [ih, hhead]

/-! ## Lemmas about the debouncer -/

theorem debounceEmits_burst (T : ℕ) : ∀ (l : List (ℕ × ℕ)) (p : ℕ × ℕ),
    timesWithin T (l.map Prod.fst) = true → l.getLast? = some p →
    debounceEmits T l = [(p.1 + T, p.2)] := by
  intro l
  induction l with
  | nil => intro p _ hp; exact Option.noConfusion hp
  | cons x l ih =>
    intro p hw hp
    cases l with
    | nil =>
      obtain ⟨t, v⟩ := x
      have hx : (t, v) = p := by simpa using hp
      subst hx
      rfl
    | cons y l2 =>
      obtain ⟨t, v⟩ := x
      obtain ⟨t2, v2⟩ := y
      simp only [List.map_cons, timesWithin, Bool.and_eq_true, decide_eq_true_eq] at hw
      rw [List.getLast?_cons_cons] at hp
      show (if t + T ≤ t2 then [(t + T, v)] else []) ++ debounceEmits T ((t2, v2) :: l2)
          = [(p.1 + T, p.2)]
      rw [if_neg (by omega), List.nil_append]
      exact ih p (by simpa using hw.2) hp

/-! ## The claims -/

/-- C1: Geometry correctness fails on the code.  `columnCount` does equal
`floor(availableWidth / cellExtent)` (first two conjuncts), but with the
default fallback width 1360 the column count is 37, which does not divide
10,000,000: the virtualizer's fractional `count = 10000000 / 37` enumerates
the partial last row 270270 (its first cell, linear index 9,999,990, is in
range), and column 10 of that row has `actualIndex = 270270 * 37 + 10 =
10,000,000`, outside `[0, N)`. -/
theorem spec_c1_visible_index_overflow :
    columnLength 1360 = 1360 / (checkboxSize + checkboxPadding) ∧
      columnLength 1360 = 37 ∧
      rowEnumerated (columnLength 1360) 270270 ∧
      colEnumerated (columnLength 1360) 10 ∧
      actualIndex (columnLength 1360) 270270 10 = zeroToTenMilionLength ∧
      ¬ actualIndex (columnLength 1360) 270270 10 < zeroToTenMilionLength := by
  decide

/-- C2 (counterexample): the claim that a malformed mutation broadcast leaves
the store unchanged is false as stated: the frame `"c"` (missing index) takes
the `type === "c"` branch with `index === undefined` and assigns
`listState.current[undefined] = true`, adding the junk key `"undefined"`. -/
theorem spec_c2_counterexample :
    processMessage (∅ : ListState) "c" ≠ (∅ : ListState) ∧
      "undefined" ∈ processMessage (∅ : ListState) "c" := by
  exact ⟨by decide, by decide⟩

/-- C2 (amended): a mutation-broadcast frame whose index field is missing or
is not the decimal numeral of any index never changes `isChecked i` for any
index `i`, and processing it is a total function (no error, no retry); only
the junk key it touches (`"undefined"` or the raw field) can differ. -/
theorem spec_c2_malformed_broadcast (st : ListState) (frame : String) (i : ℕ)
    (hng : jsIncludes frame "get," = false)
    (hmal : ∀ s, (jsSplit1 ',' frame)[1]? = some s → ∀ j : ℕ, s ≠ Nat.repr j) :
    isChecked (processMessage st frame) i = isChecked st i := by
  have hkey : rawKey (jsSplit1 ',' frame)[1]? ≠ Nat.repr i := by
    rcases h : (jsSplit1 ',' frame)[1]? with _ | s
    · exact fun hc => repr_ne_undefined i hc.symm
    · exact hmal s h i
  unfold processMessage
  rw [hng, if_neg (by decide : ¬ ((false : Bool) = true))]
  unfold mutationStep isChecked
  dsimp only
  refine decide_eq_decide.mpr ?_
  have hne : Nat.repr i ≠ rawKey (jsSplit1 ',' frame)[1]? := fun hc => hkey hc.symm
  constructor
  · intro hm
    split at hm
    · rcases Finset.mem_erase.mp hm with ⟨_, hm2⟩
      split at hm2
      · rcases Finset.mem_insert.mp hm2 with hc | hst
        · exact absurd hc hne
        · exact hst
      · exact hm2
    · split at hm
      · rcases Finset.mem_insert.mp hm with hc | hst
        · exact absurd hc hne
        · exact hst
      · exact hm
  · intro hm
    split
    · refine Finset.mem_erase.mpr ⟨hne, ?_⟩
      split
      · exact Finset.mem_insert_of_mem hm
      · exact hm
    · split
      · exact Finset.mem_insert_of_mem hm
      · exact hm

/-- C2 (witness): the amended theorem applied to the malformed frame `"c"`
and a store in which index 3 is checked. -/
theorem spec_c2_witness :
    jsIncludes "c" "get," = false ∧
      isChecked (processMessage (insert (Nat.repr 3) ∅) "c") 3 =
        isChecked (insert (Nat.repr 3) ∅) 3 := by
  have h1 : (jsSplit1 ',' "c")[1]? = none := by decide
  refine ⟨by decide, spec_c2_malformed_broadcast _ "c" 3 (by decide) ?_⟩
  intro s hs
  rw [h1] at hs
  exact Option.noConfusion hs

/-- C3 (counterexample): the claim that an index not reported checked keeps
its previous store state is false: merging the response `get,5:0` into a
store where index 5 is checked deletes the entry (a `:0` tuple is an explicit
delete, not a skip). -/
theorem spec_c3_counterexample :
    isChecked (insert (Nat.repr 5) ∅) 5 = true ∧
      isChecked (mergeGetFrame (insert (Nat.repr 5) ∅) "get,5:0") 5 = false := by
  exact ⟨by decide, by decide⟩

/-- C3 (amended): merging a range response sets exactly the indices whose last
tuple carries bit `1`, deletes those whose last tuple carries any other bit,
and leaves every index the response does not mention — inside or outside the
queried range — in exactly its previous state. -/
theorem spec_c3_merge_effect (st : ListState) (frame : String) (i : ℕ) :
    isChecked (mergeGetFrame st frame) i =
      match lastOn (((jsSplit1 ',' frame).drop 1).filterMap tupleOp) (Nat.repr i) with
      | some b => b
      | none => isChecked st i := by
  unfold mergeGetFrame isChecked
  rcases h : lastOn (((jsSplit1 ',' frame).drop 1).filterMap tupleOp) (Nat.repr i) with _ | b
  · refine decide_eq_decide.mpr ?_
    rw [mem_applyOps, h]
    simp
  · cases b
    · have hnm : Nat.repr i ∉ applyOps st (((jsSplit1 ',' frame).drop 1).filterMap tupleOp) := by
        rw [mem_applyOps, h]
        simp
      simpa using hnm
    · have hm : Nat.repr i ∈ applyOps st (((jsSplit1 ',' frame).drop 1).filterMap tupleOp) := by
        rw [mem_applyOps, h]
        simp
      simpa using hm

/-- C4: when the connection transitions from connecting to open, exactly one
range query goes out, and it is `get,<start>,<end>` for the settled viewport
bounds at the moment of the transition. -/
theorem spec_c4_open_sends_one_query (st : ClientState) (h : st.connected = false) :
    (onOpen st).2 = [mkGet st.settledStart st.settledEnd] ∧ (onOpen st).2.length = 1 := by
  constructor
  · simp [onOpen, sendOnWire]
  · simp [onOpen, sendOnWire]

/-- C4 (witness): from the initial state (connecting, settled range
`[0, 1000)`), opening emits exactly `get,0,1000`. -/
theorem spec_c4_witness :
    initClient.connected = false ∧ (onOpen initClient).2 = ["get,0,1000"] := by
  refine ⟨rfl, ?_⟩
  rw [(spec_c4_open_sends_one_query initClient rfl).1]
  decide

/-- C5: after any finite sequence of mutations — local toggles, remote
`c,`/`u,` broadcasts, and range-merge tuples, all through their real code
paths — index `i` is checked iff the last mutation touching `i` was a check;
in particular the store holds no entry for an index whose last mutation was
an uncheck. -/
theorem spec_c5_sparse_invariant (ops : List Mutation) (i : ℕ) :
    isChecked (ops.foldl applyMutation ∅) i = true ↔ lastWrite ops i = some true := by
  rw [foldl_applyMutation]
  unfold isChecked
  rw [decide_eq_true_eq, mem_applyOps, lastOn_map_opOf]
  simp

/-- C6: merging the same range-response frame twice leaves the store exactly
as merging it once; in particular an uncheck tuple for an already-unchecked
index is a no-op (second conjunct: merging `get,5:0` into the empty store
yields the empty store). -/
theorem spec_c6_merge_idempotent :
    (∀ (st : ListState) (frame : String),
        mergeGetFrame (mergeGetFrame st frame) frame = mergeGetFrame st frame) ∧
      mergeGetFrame (∅ : ListState) "get,5:0" = (∅ : ListState) := by
  constructor
  · intro st frame
    exact applyOps_idem st _
  · decide

/-- C7: locally checking index `i` and then processing the echoed broadcast
`c,<i>` leaves `i` checked, and the store equals the state after the local
check alone (the second application is idempotent). -/
theorem spec_c7_toggle_roundtrip (st : ListState) (i : ℕ) :
    isChecked (processMessage (localToggleStore st i true) (mutFrame true i)) i = true ∧
      processMessage (localToggleStore st i true) (mutFrame true i) =
        localToggleStore st i true := by
  rw [processMessage_mutFrame]
  constructor
  · simp [localToggleStore, isChecked]
  · simp [localToggleStore]

/-- C8: `send` while the connection is not open (not `connected`, or the
socket not in `OPEN`) puts nothing on the wire, changes no client state (so
nothing is queued), and a later open transition emits only the fresh range
query — the dropped command is never retransmitted. -/
theorem spec_c8_disconnected_send (st : ClientState) (cmd : String)
    (h : ¬ (st.connected = true ∧ st.readyState = some wsOPEN)) :
    sendStep st cmd = (st, []) ∧
      (onOpen (sendStep st cmd).1).2 = [mkGet st.settledStart st.settledEnd] := by
  constructor
  · simp [sendStep, sendOnWire, h]
  · simp [sendStep, onOpen, sendOnWire]

/-- C8 (witness): `send("c,1")` in the initial (disconnected) state is a
complete no-op. -/
theorem spec_c8_witness : sendStep initClient "c,1" = (initClient, []) := by
  exact (spec_c8_disconnected_send initClient "c,1" (by decide)).1

/-- C9: for a burst of candidate ranges each arriving within the quiet
interval of its predecessor, both debounced bounds settle exactly once, at
the last arrival time plus the quiet interval, to the bounds of the last
candidate: the single settled range is the last candidate of the burst. -/
theorem spec_c9_debounce_collapse (cands : List (ℕ × ℕ × ℕ)) (last : ℕ × ℕ × ℕ)
    (hlast : cands.getLast? = some last)
    (hburst : timesWithin debounceDelay (cands.map Prod.fst) = true) :
    debounceEmits debounceDelay (startFeed cands) = [(last.1 + debounceDelay, last.2.1)] ∧
      debounceEmits debounceDelay (endFeed cands) = [(last.1 + debounceDelay, last.2.2)] := by
  have hs : (startFeed cands).map Prod.fst = cands.map Prod.fst := by
    simp [startFeed, List.map_map]
  have he : (endFeed cands).map Prod.fst = cands.map Prod.fst := by
    simp [endFeed, List.map_map]
  have hsl : (startFeed cands).getLast? = some (last.1, last.2.1) := by
    simp [startFeed, List.getLast?_map, hlast]
  have hel : (endFeed cands).getLast? = some (last.1, last.2.2) := by
    simp [endFeed, List.getLast?_map, hlast]
  constructor
  · exact debounceEmits_burst debounceDelay (startFeed cands) (last.1, last.2.1)
      (by rw [hs]; exact hburst) hsl
  · exact debounceEmits_burst debounceDelay (endFeed cands) (last.1, last.2.2)
      (by rw [he]; exact hburst) hel

/-- C9 (witness): the 50-candidate burst 10 ms apart settles once, 1000 ms
after the last candidate, to the last candidate `(49, 1049)`. -/
theorem spec_c9_witness :
    debounceEmits debounceDelay (startFeed burst50) = [(1490, 49)] ∧
      debounceEmits debounceDelay (endFeed burst50) = [(1490, 1049)] := by
  have h := spec_c9_debounce_collapse burst50 (490, (49, 1049)) (by decide) (by decide)
  simpa [debounceDelay] using h

/-- C10: inbound frames are classified by substring containment, not by
prefix: the handler takes the merge path exactly when the frame contains
`"get,"` anywhere (second conjunct characterises the test as substring
occurrence), and a mutation-like frame such as `forget,7:1` is therefore
merged as a range response — it checks index 7, which the mutation branch
never would. -/
theorem spec_c10_classification :
    (∀ (st : ListState) (frame : String),
        processMessage st frame =
          if jsIncludes frame "get," then mergeGetFrame st frame else mutationStep st frame) ∧
      (∀ frame : String,
        jsIncludes frame "get," = true ↔ ∃ x y, frame.data = x ++ "get,".data ++ y) ∧
      "7" ∈ processMessage (∅ : ListState) "forget,7:1" ∧
      "7" ∉ mutationStep (∅ : ListState) "forget,7:1" := by
  refine ⟨fun st frame => rfl, fun frame => containsSeq_iff (by decide) frame.data,
    by decide, by decide⟩

/-- C10 (witness): the classification theorem applied to the frame
`forget,7:1`, which contains `"get,"` without being a `get`-prefixed
response. -/
theorem spec_c10_witness :
    jsIncludes "forget,7:1" "get," = true ∧
      "7" ∈ processMessage (∅ : ListState) "forget,7:1" := by
  exact ⟨(spec_c10_classification.2.1 "forget,7:1").mpr ⟨"for".data, "7:1".data, by decide⟩,
    spec_c10_classification.2.2.1⟩
